import Mathlib

/-!
# Verification of the Rplace canvas state engine

Shallow embedding of the canvas-state logic of the Rplace repository:

* the run-length pixel codec (`compressPixelData` / `decompressPixelData`,
  `src/convex/functions.ts` and the identical copies in the older backend
  variants),
* the resize engine (`resizePixelData`),
* the Convex RLE-record store (`src/convex/functions.ts`: `getCanvas`,
  `updatePixel`, `extractSizeFromCompressed`, `addSizeToCompressed`),
* the pixel-document store variant (`Docs` namespace, first variant of
  `src/unnamed/part_000`: `updatePixel`, `updatePixels`),
* the strict RLE variant (`Strict` namespace, fourth variant of
  `src/unnamed/part_000`: erroring `decompressPixelData`, `updatePixels`),
* the client-side optimistic reconciler and reconnection policy
  (`App` namespace, `src/src/App.tsx`).

JavaScript strings are modelled as `List Char` (`JStr`); JS `Array` of strings
as `List JStr`.  JS numbers that hold integers (coordinates, sizes, parsed
counts) are modelled as `Int` or `Nat` as appropriate; `parseInt(s, 10)`
returning `NaN` is modelled as `Option.none`.  Convex mutations are
transactional: a thrown error aborts every write of the handler, so a handler
is modelled as a pure function returning `Except CanvasError σ` — on
`.error` the caller's state is unchanged.
-/

/-- A JavaScript string, modelled as its list of characters. -/
abbrev JStr := List Char

/-- Embed a Lean string literal as a `JStr`. -/
def str (s : String) : JStr := s.data

/-- The default pixel color `'#FFFFFF'` used by every backend variant. -/
def defaultColor : JStr := str "#FFFFFF"

/-- JS `s.split(sep)` for a single-character separator: split a character
list at every occurrence of `sep`.  Always returns at least one group. -/
def splitOnChar (sep : Char) : JStr → List JStr
  | [] => [[]]
  | c :: cs =>
    match splitOnChar sep cs with
    | [] => [[c]]
    | g :: gs => if c = sep then [] :: g :: gs else (c :: g) :: gs

/-- JS `parts.join(sep)` for a single-character separator. -/
def joinSep (sep : Char) : List JStr → JStr
  | [] => []
  | [t] => t
  | t :: t' :: ts => t ++ sep :: joinSep sep (t' :: ts)

/-- The whitespace characters skipped by JS `parseInt` (the common ASCII
forms; the source never feeds exotic Unicode whitespace to `parseInt`). -/
def isJsSpace (c : Char) : Bool :=
  c == ' ' || c == '\t' || c == '\n' || c == '\r'

/-- Decimal value of a digit run: the number built by JS `parseInt` from a
string of decimal digits. -/
def digitsToNat (ds : List Char) : Nat :=
  ds.foldl (fun a c => 10 * a + (c.toNat - 48)) 0

/-- Longest leading run of decimal digits, as a number; `none` if the first
character is not a digit (JS `parseInt` → `NaN`). -/
def parseDigits (cs : JStr) : Option Nat :=
  let ds := cs.takeWhile Char.isDigit
  if ds.isEmpty then none else some (digitsToNat ds)

/-- JS `parseInt(s, 10)`: skip leading whitespace, read an optional sign and
then the longest run of decimal digits; `NaN` (modelled `none`) if no digit
follows. -/
def parseIntChars (s : JStr) : Option Int :=
  match s.dropWhile isJsSpace with
  | [] => none
  | c :: rest =>
    if c = '-' then (parseDigits rest).map (fun n => -(n : Int))
    else if c = '+' then (parseDigits rest).map (fun n => (n : Int))
    else (parseDigits (c :: rest)).map (fun n => (n : Int))

/-- Decimal digit character for `m ≤ 9` (the characters produced by JS
number-to-string interpolation of the run counts). -/
def digitChar (m : Nat) : Char :=
  match m with
  | 0 => '0' | 1 => '1' | 2 => '2' | 3 => '3' | 4 => '4'
  | 5 => '5' | 6 => '6' | 7 => '7' | 8 => '8' | _ => '9'

/-- Fuel-driven digit expansion (the fuel keeps the recursion structural;
any fuel above the argument is enough, see `natDigitsAux_irrel`). -/
def natDigitsAux : Nat → Nat → JStr
  | 0, _ => []
  | fuel + 1, n =>
    if n < 10 then [digitChar n]
    else natDigitsAux fuel (n / 10) ++ [digitChar (n % 10)]

/-- Decimal representation of a natural number, most significant digit
first: JS `${count}` for a nonnegative integer `count`. -/
def natDigits (n : Nat) : JStr := natDigitsAux (n + 1) n

/-! ## The run-length pixel codec

`compressPixelData` / `decompressPixelData` from `src/convex/functions.ts`
(lines 41–97), with identical copies in the second and third variants of
`src/unnamed/part_000`.  The fourth variant guards the empty input
explicitly (`if (pixels.length === 0) return ''`); in the unguarded copies
the same result arises because `[undefined].join('|')` is `''` in JS, so a
single definition covers every variant's compressor behaviour.

A run of length `1` is emitted as the bare color token, longer runs as
`` `${count}:${color}` ``; tokens are joined with `'|'`; runs are capped at
999 (`count < 999` re-check). -/

/-- One emitted run token: `count === 1 ? color : count + ':' + color`. -/
def runToken (count : Nat) (color : JStr) : JStr :=
  if count = 1 then color else natDigits count ++ ':' :: color

/-- The compressor's for-loop: state is the emitted token list, the current
run color and the current run count; the final token is pushed after the
loop. -/
def compressLoop : List JStr → List JStr → JStr → Nat → List JStr
  | [], compressed, currentColor, count => compressed ++ [runToken count currentColor]
  | p :: rest, compressed, currentColor, count =>
    if p = currentColor ∧ count < 999 then
      compressLoop rest compressed currentColor (count + 1)
    else
      compressLoop rest (compressed ++ [runToken count currentColor]) p 1

/-- `compressPixelData` (`src/convex/functions.ts:41`). -/
def compressPixelData (pixels : List JStr) : JStr :=
  match pixels with
  | [] => []
  | p0 :: rest => joinSep '|' (compressLoop rest [] p0 1)

/-- Expansion of one `'|'`-separated part by `decompressPixelData`
(`src/convex/functions.ts:79-89`): a part containing `':'` is split into
count and color and the color is pushed `count` times (`parseInt` yielding
`NaN` or a non-positive count pushes nothing, since the JS `for` loop body
never runs); any other part is pushed once as a bare color. -/
def decodeToken (part : JStr) : List JStr :=
  if ':' ∈ part then
    let segs := splitOnChar ':' part
    let color := segs.getD 1 []
    match parseIntChars (segs.getD 0 []) with
    | none => []
    | some k => List.replicate k.toNat color
  else [part]

/-- The decompressor's `for (const part of parts)` loop: successive pushes
are concatenation. -/
def expandParts : List JStr → List JStr
  | [] => []
  | p :: ps => decodeToken p ++ expandParts ps

/-- `decompressPixelData` (`src/convex/functions.ts:71`): empty input yields
`expectedLength` default cells; otherwise split on `'|'`, expand every part,
right-pad with the default color to `expectedLength` (the `while` loop) and
truncate to `expectedLength` (the `slice(0, expectedLength)`). -/
def decompressPixelData (compressed : JStr) (expectedLength : Nat) : List JStr :=
  if compressed = [] then List.replicate expectedLength defaultColor
  else
    let pixels := expandParts (splitOnChar '|' compressed)
    (pixels ++ List.replicate (expectedLength - pixels.length) defaultColor).take expectedLength

/-! ## The resize engine

`resizePixelData` (`src/convex/functions.ts:100-122`): allocate
`newWidth * newHeight` default cells, then copy the overlapping top-left
region row by row.  The nested `for` loops are embedded as folds over
`List.range`; `oldPixels[oldIndex]` is modelled with `List.getD` (for a
well-formed old grid of `oldWidth * oldHeight` cells the index is always in
range, so the JS read never yields `undefined`). -/
def resizePixelData (oldPixels : List JStr)
    (oldWidth oldHeight newWidth newHeight : Nat) : List JStr :=
  let copyWidth := min oldWidth newWidth
  let copyHeight := min oldHeight newHeight
  (List.range copyHeight).foldl
    (fun acc y =>
      (List.range copyWidth).foldl
        (fun acc2 x =>
          acc2.set (y * newWidth + x) (oldPixels.getD (y * oldWidth + x) defaultColor))
        acc)
    (List.replicate (newWidth * newHeight) defaultColor)

/-! ## The Convex RLE-record store (`src/convex/functions.ts`)

Errors thrown by the handlers.  Convex mutations are transactional, so a
thrown error rolls back every write of the handler; an `Except.error`
result therefore always leaves the caller's state unchanged. -/

/-- The error taxonomy of the store handlers, mapping the thrown JS
`Error` messages:
* `invalidColor` — `"Invalid color: ... Color must be one of the palette colors."`
  (and the `Strict` variant's `"Invalid color: ... not in palette"`),
* `outOfBounds` — `"Coordinates (x, y) are out of bounds"` / `"... outside canvas bounds"`,
* `notFound` — `"Canvas not found"`,
* `malformedRun` — `"Invalid compression format: invalid count ..."`. -/
inductive CanvasError where
  | invalidColor
  | outOfBounds
  | notFound
  | malformedRun
deriving DecidableEq, Repr

/-- The single durable canvas document of the RLE variants: only the
`pixels` field is ever read or patched. -/
structure CanvasRecord where
  pixels : JStr
deriving DecidableEq, Repr

/-- Result of `extractSizeFromCompressed`: the stored header dimensions and
the remaining compressed payload.  An unparsable header component is JS
`NaN` (or `undefined` when the header has fewer than two components),
modelled as `none`. -/
structure ExtractResult where
  width : Option Int
  height : Option Int
  compressed : JStr
deriving DecidableEq, Repr

/-- `extractSizeFromCompressed` (`src/convex/functions.ts:126-138`): the
stored string is `"width,height|compressed_data"`.  With no `'|'` at all the
legacy fallback decompresses at expected length `0` (always `[]`, so
`Math.sqrt` of the length is `0`, modelled by `Nat.sqrt`). -/
def extractSizeFromCompressed (compressedWithSize : JStr) : ExtractResult :=
  let parts := splitOnChar '|' compressedWithSize
  if parts.length < 2 then
    let pixels := decompressPixelData compressedWithSize 0
    let size := Nat.sqrt pixels.length
    { width := some size, height := some size, compressed := compressedWithSize }
  else
    let nums := (splitOnChar ',' (parts.getD 0 [])).map parseIntChars
    { width := nums.getD 0 none, height := nums.getD 1 none,
      compressed := joinSep '|' (parts.drop 1) }

/-- `addSizeToCompressed` (`src/convex/functions.ts:141-143`). -/
def addSizeToCompressed (compressed : JStr) (width height : Nat) : JStr :=
  natDigits width ++ ',' :: natDigits height ++ '|' :: compressed

/-- Return shape of `Convex.getCanvas`. -/
structure GetCanvasResult where
  width : Nat
  height : Nat
  pixels : List JStr
  palette : List JStr
  needsResize : Bool
deriving DecidableEq, Repr

namespace Convex

/-- `getCanvas` (`src/convex/functions.ts:154-194`), a read-only query.  The
configured size `(w, h)` comes from `getSize()` (positive integers parsed
from the `SIZE` environment variable) and the palette from `getPalette()`;
both are passed as parameters.  `none` models the JS `null` return when no
canvas document exists.  A stored header whose components do not parse
(impossible for records written by this module) would propagate JS `NaN`
into the arithmetic; that degenerate path is outside the modelled scope and
mapped to `none`. -/
def getCanvas (palette : List JStr) (w h : Nat) (record? : Option CanvasRecord) :
    Option GetCanvasResult :=
  match record? with
  | none => none
  | some record =>
    let e := extractSizeFromCompressed record.pixels
    match e.width, e.height with
    | some storedWidth, some storedHeight =>
      if storedWidth ≠ (w : Int) ∨ storedHeight ≠ (h : Int) then
        let oldPixels := decompressPixelData e.compressed (storedWidth * storedHeight).toNat
        let newPixels := resizePixelData oldPixels storedWidth.toNat storedHeight.toNat w h
        some { width := w, height := h, pixels := newPixels,
               palette := palette, needsResize := true }
      else
        some { width := w, height := h,
               pixels := decompressPixelData e.compressed (w * h),
               palette := palette, needsResize := false }
    | _, _ => none

/-- `updatePixel` (`src/convex/functions.ts:262-302`): validate the color
against the palette (`isValidColor`), require the canvas document, then
decode at the *configured* size, write at linear index `y*width + x` only
when that index lies inside `[0, pixels.length)`, re-encode with the size
header and patch.  There is no coordinate bounds check: an out-of-range
index is silently skipped (the handler still returns `{ success: true }`,
modelled by `.ok` carrying the unchanged state). -/
def updatePixel (palette : List JStr) (w h : Nat) (record? : Option CanvasRecord)
    (x y : Int) (color : JStr) : Except CanvasError (Option CanvasRecord) :=
  if color ∉ palette then .error .invalidColor
  else
    match record? with
    | none => .error .notFound
    | some record =>
      let e := extractSizeFromCompressed record.pixels
      let pixels := decompressPixelData e.compressed (w * h)
      let index : Int := y * w + x
      if 0 ≤ index ∧ index < (pixels.length : Int) then
        let pixels' := pixels.set index.toNat color
        .ok (some ⟨addSizeToCompressed (compressPixelData pixels') w h⟩)
      else
        .ok (some record)

end Convex

/-! ## The pixel-document store variant (first variant of `src/unnamed/part_000`)

Pixels are individual documents `{x, y, color}` in a `pixels` table with a
`by_coordinates` index; the table is modelled as a list in creation order
(`withIndex ... first` finds the first matching document, `insert`
appends). -/

/-- One document of the `pixels` table. -/
structure PixelDoc where
  x : Int
  y : Int
  color : JStr
deriving DecidableEq, Repr

/-- One entry of a batch update. -/
structure PixelUpd where
  x : Int
  y : Int
  color : JStr
deriving DecidableEq, Repr

namespace Docs

/-- The patch-or-insert step shared by `updatePixel` and `updatePixels`
(`src/unnamed/part_000:189-209` and `281-301`): patch the first document at
`(x, y)` if one exists, otherwise insert a new document. -/
def setPixelDoc (table : List PixelDoc) (x y : Int) (color : JStr) : List PixelDoc :=
  match table with
  | [] => [⟨x, y, color⟩]
  | d :: rest =>
    if d.x = x ∧ d.y = y then { d with color := color } :: rest
    else d :: setPixelDoc rest x y color

/-- `updatePixel` (`src/unnamed/part_000:170-213`): reject a color outside
the palette (`InvalidColor`), then reject coordinates outside
`[0,width) × [0,height)` of the *configured* size (`OutOfBounds`), both
before any database access; otherwise patch-or-insert the pixel document. -/
def updatePixel (palette : List JStr) (width height : Int) (table : List PixelDoc)
    (x y : Int) (color : JStr) : Except CanvasError (List PixelDoc) :=
  if color ∉ palette then .error .invalidColor
  else if x < 0 ∨ x ≥ width ∨ y < 0 ∨ y ≥ height then .error .outOfBounds
  else .ok (setPixelDoc table x y color)

/-- The per-entry loop of `updatePixels` (`src/unnamed/part_000:270-302`):
for each entry, an invalid color throws `InvalidColor` (aborting the whole
transactional mutation, so no write survives), an out-of-bounds entry is
skipped with `continue`, and every other entry is patched-or-inserted
immediately. -/
def updatePixelsLoop (palette : List JStr) (width height : Int) :
    List PixelUpd → List PixelDoc → Except CanvasError (List PixelDoc)
  | [], table => .ok table
  | u :: rest, table =>
    if u.color ∉ palette then .error .invalidColor
    else if u.x < 0 ∨ u.x ≥ width ∨ u.y < 0 ∨ u.y ≥ height then
      updatePixelsLoop palette width height rest table
    else
      updatePixelsLoop palette width height rest (setPixelDoc table u.x u.y u.color)

/-- `updatePixels` (`src/unnamed/part_000:259-306`).  The JS handler also
returns `{ success: true, updated: args.pixels.length }`; only the resulting
table matters for the claims, so the result value is the table. -/
def updatePixels (palette : List JStr) (width height : Int) (table : List PixelDoc)
    (updates : List PixelUpd) : Except CanvasError (List PixelDoc) :=
  updatePixelsLoop palette width height updates table

end Docs

/-! ## The strict RLE variant (fourth variant of `src/unnamed/part_000`)

Same codec, but `decompressPixelData` rejects malformed run counts
(`isNaN(count) || count <= 0` throws), `split(':', 2)` limits the split,
and `updatePixels` validates coordinates *and* colors of every entry up
front (an out-of-bounds entry fails the whole batch).  The canvas is square
(`readCanvasSize` yields one side length) and the record stores the bare
compressed payload without a size header. -/

namespace Strict

/-- Expansion of one part by the strict `decompressPixelData`
(`src/unnamed/part_000:773-787`): with a `':'` present, the count is
`parseInt(countStr, 10)` of the text before the first `':'`, the color is
the text between the first and second `':'` (JS `split(sep, 2)`), and a
`NaN` or non-positive count throws `"Invalid compression format"`. -/
def expandPart (part : JStr) : Except CanvasError (List JStr) :=
  if ':' ∈ part then
    let segs := splitOnChar ':' part
    let color := segs.getD 1 []
    match parseIntChars (segs.getD 0 []) with
    | none => .error .malformedRun
    | some k => if k ≤ 0 then .error .malformedRun else .ok (List.replicate k.toNat color)
  else .ok [part]

/-- The strict decompressor's part loop: the first malformed part aborts. -/
def expandPartsE : List JStr → Except CanvasError (List JStr)
  | [] => .ok []
  | p :: ps =>
    match expandPart p with
    | .error e => .error e
    | .ok xs => (expandPartsE ps).map (xs ++ ·)

/-- `decompressPixelData`, strict variant (`src/unnamed/part_000:765-795`). -/
def decompressPixelData (compressed : JStr) (expectedLength : Nat) :
    Except CanvasError (List JStr) :=
  if compressed = [] then .ok (List.replicate expectedLength defaultColor)
  else
    match expandPartsE (splitOnChar '|' compressed) with
    | .error e => .error e
    | .ok pixels =>
      .ok ((pixels ++ List.replicate (expectedLength - pixels.length) defaultColor).take
        expectedLength)

/-- The up-front validation loop of the strict `updatePixels`
(`src/unnamed/part_000:920-923`): `validateCoordinates` throws
`OutOfBounds` and `validateColor` throws `InvalidColor`, coordinates first,
for each entry in order. -/
def validateAll (palette : List JStr) (size : Nat) :
    List PixelUpd → Except CanvasError Unit
  | [] => .ok ()
  | u :: rest =>
    if u.x < 0 ∨ u.x ≥ (size : Int) ∨ u.y < 0 ∨ u.y ≥ (size : Int) then .error .outOfBounds
    else if u.color ∉ palette then .error .invalidColor
    else validateAll palette size rest

/-- `updatePixels`, strict variant (`src/unnamed/part_000:895-938`): an
empty batch returns immediately; otherwise the canvas document is required,
every entry's coordinates and color are validated before any write, and
only then is the grid decoded once, all writes applied, and the result
re-encoded. -/
def updatePixels (palette : List JStr) (size : Nat) (record? : Option CanvasRecord)
    (updates : List PixelUpd) : Except CanvasError (Option CanvasRecord) :=
  if updates = [] then .ok record?
  else
    match record? with
    | none => .error .notFound
    | some record =>
      match validateAll palette size updates with
      | .error e => .error e
      | .ok _ =>
        match decompressPixelData record.pixels (size * size) with
        | .error e => .error e
        | .ok pixels =>
          let pixels' := updates.foldl
            (fun px u => px.set (u.y * (size : Int) + u.x).toNat u.color) pixels
          .ok (some ⟨compressPixelData pixels'⟩)

end Strict

/-! ## The client-side reconciler (`src/src/App.tsx`)

`pendingUpdates` is a JS `Map` from the coordinate key `` `${x},${y}` `` to
the optimistic color; since `x.toString + "," + y.toString` is injective on
integer pairs, the key is modelled as the pair `(x, y)` itself.  A JS `Map`
holds at most one entry per key, so deletion is modelled by filtering. -/

/-- Reconciler state: the rendered grid (`localPixelData`, which the canvas
2D context mirrors pixel for pixel) and the in-flight optimistic edits
(`pendingUpdates`). -/
structure AppState where
  localPixelData : List JStr
  pendingUpdates : List ((Int × Int) × JStr)
deriving DecidableEq, Repr

namespace App

/-- JS `Map.prototype.has`. -/
def mapHas (m : List ((Int × Int) × JStr)) (k : Int × Int) : Bool :=
  m.any (fun e => e.1 = k)

/-- JS `Map.prototype.get`, as an `Option`. -/
def mapGet (m : List ((Int × Int) × JStr)) (k : Int × Int) : Option JStr :=
  (m.find? (fun e => e.1 = k)).map (·.2)

/-- JS `Map.prototype.set`: overwrite the existing entry for the key, else
append a new one. -/
def mapSet (m : List ((Int × Int) × JStr)) (k : Int × Int) (v : JStr) :
    List ((Int × Int) × JStr) :=
  match m with
  | [] => [(k, v)]
  | e :: rest => if e.1 = k then (k, v) :: rest else e :: mapSet rest k v

/-- JS `Map.prototype.delete` (keys are unique in a `Map`, so removing
every occurrence coincides with removing the one occurrence). -/
def mapDelete (m : List ((Int × Int) × JStr)) (k : Int × Int) :
    List ((Int × Int) × JStr) :=
  m.filter (fun e => e.1 ≠ k)

/-- JS `newData[index] = color` on an array of length `w*h`: in range it
replaces the cell; out of range it would create a hole or a plain property,
which is not part of the rendered grid and is modelled as a no-op. -/
def listSetInt (l : List JStr) (i : Int) (v : JStr) : List JStr :=
  if 0 ≤ i ∧ i < (l.length : Int) then l.set i.toNat v else l

/-- `handleRemotePixelUpdate` (`src/src/App.tsx:309-344`): if the cell has a
pending optimistic entry the incoming update is treated as the echo of our
own edit — the pending entry is deleted and nothing is rendered (the handler
returns before touching `localPixelData`); otherwise the remote color is
written to the rendered grid at linear index `y*canvasWidth + x`. -/
def handleRemotePixelUpdate (canvasWidth : Nat) (s : AppState)
    (x y : Int) (color : JStr) : AppState :=
  if mapHas s.pendingUpdates (x, y) then
    { s with pendingUpdates := mapDelete s.pendingUpdates (x, y) }
  else
    { s with localPixelData := listSetInt s.localPixelData (y * canvasWidth + x) color }

/-- The synchronous part of `updateSinglePixel` (`src/src/App.tsx:429-469`):
record the edit as pending and render it optimistically.  The asynchronous
submission completes later via `submitSettled`. -/
def updateSinglePixel (canvasWidth : Nat) (s : AppState)
    (x y : Int) (color : JStr) : AppState :=
  { localPixelData := listSetInt s.localPixelData (y * canvasWidth + x) color,
    pendingUpdates := mapSet s.pendingUpdates (x, y) color }

/-- Completion of the submission started by `updateSinglePixel`
(`src/src/App.tsx:472-493`): both the `.then` and the `.catch` handler
delete the pending entry for the cell (the rendered color is left as the
optimistic value in both cases). -/
def submitSettled (s : AppState) (x y : Int) : AppState :=
  { s with pendingUpdates := mapDelete s.pendingUpdates (x, y) }

/-- The reconnection backoff of `connectWebSocket`
(`src/src/App.tsx:278`): `Math.min(1000 * Math.pow(2, reconnectAttempts), 30000)`. -/
def backoffDelay (reconnectAttempts : Nat) : Nat :=
  min (1000 * 2 ^ reconnectAttempts) 30000

/-- The reconnection guard of the `onclose` handler
(`src/src/App.tsx:277`): a new attempt is scheduled only for an unclean
close with fewer than 5 attempts made so far. -/
def willReconnect (wasClean : Bool) (reconnectAttempts : Nat) : Bool :=
  !wasClean && decide (reconnectAttempts < 5)

end App

/-- A well-formed color token: non-empty and free of the two characters the
codec reserves as the run delimiter (`'|'`) and the count separator
(`':'`).  Every palette color of the repository (7-character `#`-hex
strings) is well-formed. -/
def validColor (c : JStr) : Prop := c ≠ [] ∧ ':' ∉ c ∧ '|' ∉ c

instance (c : JStr) : Decidable (validColor c) := by
  unfold validColor; infer_instance

/-! ## Lemmas: decimal rendering -/

theorem natDigitsAux_irrel (n : Nat) : ∀ f f', n < f → n < f' →
    natDigitsAux f n = natDigitsAux f' n := by
  induction n using Nat.strong_induction_on with
  | _ n ih =>
    intro f f' hf hf'
    match f, f' with
    | f + 1, f' + 1 =>
      simp only [natDigitsAux]
      by_cases h10 : n < 10
      · simp [h10]
      · have hdiv : n / 10 < n := Nat.div_lt_self (by omega) (by omega)
        simp only [h10, if_false]
        rw [ih (n / 10) hdiv f f' (by omega) (by omega)]

/-- The defining recurrence of `natDigits`. -/
theorem natDigits_eq (n : Nat) :
    natDigits n = if n < 10 then [digitChar n]
      else natDigits (n / 10) ++ [digitChar (n % 10)] := by
  show natDigitsAux (n + 1) n = _
  simp only [natDigitsAux]
  by_cases h10 : n < 10
  · simp [h10]
  · have hdiv : n / 10 < n := Nat.div_lt_self (by omega) (by omega)
    simp only [h10, if_false]
    rw [natDigitsAux_irrel (n / 10) n (n / 10 + 1) (by omega) (by omega)]
    rfl

/-! ## Lemmas: split and join -/

theorem splitOnChar_ne_nil (sep : Char) (cs : JStr) : splitOnChar sep cs ≠ [] := by
  cases cs with
  | nil => simp [splitOnChar]
  | cons c cs =>
    simp only [splitOnChar]
    cases h : splitOnChar sep cs with
    | nil => simp
    | cons g gs =>
      by_cases hc : c = sep <;> simp [hc]

theorem splitOnChar_of_not_mem {sep : Char} {cs : JStr} (h : sep ∉ cs) :
    splitOnChar sep cs = [cs] := by
  induction cs with
  | nil => rfl
  | cons c cs ih =>
    have hc : c ≠ sep := fun hcs => h (hcs ▸ List.mem_cons_self c cs)
    have hmem : sep ∉ cs := fun hm => h (List.mem_cons_of_mem c hm)
    simp only [splitOnChar, ih hmem]
    simp [hc]

theorem splitOnChar_append_sep {sep : Char} {xs : JStr} (ys : JStr) (h : sep ∉ xs) :
    splitOnChar sep (xs ++ sep :: ys) = xs :: splitOnChar sep ys := by
  induction xs with
  | nil =>
    simp only [List.nil_append, splitOnChar]
    cases hys : splitOnChar sep ys with
    | nil => exact absurd hys (splitOnChar_ne_nil sep ys)
    | cons g gs => simp
  | cons x xs ih =>
    have hx : x ≠ sep := fun hxs => h (hxs ▸ List.mem_cons_self x xs)
    have hmem : sep ∉ xs := fun hm => h (List.mem_cons_of_mem x hm)
    simp only [List.cons_append, splitOnChar, List.append_eq]
    rw [ih hmem]
    simp [hx]

theorem splitOnChar_joinSep {sep : Char} : ∀ {ts : List JStr}, ts ≠ [] →
    (∀ t ∈ ts, sep ∉ t) → splitOnChar sep (joinSep sep ts) = ts := by
  intro ts
  induction ts with
  | nil => intro h; exact absurd rfl h
  | cons t ts ih =>
    intro _ hmem
    cases ts with
    | nil => exact splitOnChar_of_not_mem (hmem t (List.mem_cons_self t []))
    | cons t' ts' =>
      show splitOnChar sep (t ++ sep :: joinSep sep (t' :: ts')) = _
      rw [splitOnChar_append_sep _ (hmem t (by simp))]
      rw [ih (by simp) (fun u hu => hmem u (List.mem_cons_of_mem t hu))]

theorem joinSep_ne_nil {sep : Char} : ∀ {ts : List JStr}, ts ≠ [] →
    (∀ t ∈ ts, t ≠ []) → joinSep sep ts ≠ [] := by
  intro ts
  match ts with
  | [] => intro h _; exact absurd rfl h
  | [t] => intro _ hne; exact hne t (by simp)
  | t :: t' :: ts' =>
    intro _ hne
    show t ++ sep :: joinSep sep (t' :: ts') ≠ []
    simp

/-! ## Lemmas: decimal digits -/

theorem digitChar_isDigit (m : Nat) : (digitChar m).isDigit = true := by
  unfold digitChar
  split <;> decide

theorem digitChar_toNat {m : Nat} (h : m < 10) : (digitChar m).toNat = 48 + m := by
  interval_cases m <;> decide

theorem natDigits_ne_nil (n : Nat) : natDigits n ≠ [] := by
  rw [natDigits_eq]
  by_cases h : n < 10 <;> simp [h]

theorem natDigits_all_digit (n : Nat) : ∀ c ∈ natDigits n, c.isDigit = true := by
  induction n using Nat.strong_induction_on with
  | _ n ih =>
    rw [natDigits_eq]
    by_cases h : n < 10
    · simp [h, digitChar_isDigit]
    · have hdiv : n / 10 < n := Nat.div_lt_self (by omega) (by omega)
      simp only [h, if_false]
      intro c hc
      rcases List.mem_append.mp hc with hc | hc
      · exact ih (n / 10) hdiv c hc
      · simp only [List.mem_singleton] at hc
        exact hc ▸ digitChar_isDigit _

theorem isDigit_not_special {c : Char} (h : c.isDigit = true) :
    c ≠ ':' ∧ c ≠ '|' ∧ c ≠ ',' ∧ c ≠ '-' ∧ c ≠ '+' ∧ isJsSpace c = false := by
  refine ⟨fun hc => ?_, fun hc => ?_, fun hc => ?_, fun hc => ?_, fun hc => ?_, ?_⟩
  · subst hc; exact absurd h (by decide)
  · subst hc; exact absurd h (by decide)
  · subst hc; exact absurd h (by decide)
  · subst hc; exact absurd h (by decide)
  · subst hc; exact absurd h (by decide)
  · unfold isJsSpace
    by_contra hb
    simp only [Bool.not_eq_false, Bool.or_eq_true, beq_iff_eq] at hb
    rcases hb with ((hc | hc) | hc) | hc <;> subst hc <;> exact absurd h (by decide)

theorem digitsToNat_append_digit (xs : List Char) (d : Char) :
    digitsToNat (xs ++ [d]) = 10 * digitsToNat xs + (d.toNat - 48) := by
  simp [digitsToNat, List.foldl_append]

theorem digitsToNat_natDigits (n : Nat) : digitsToNat (natDigits n) = n := by
  induction n using Nat.strong_induction_on with
  | _ n ih =>
    rw [natDigits_eq]
    by_cases h : n < 10
    · rw [if_pos h]
      simp [digitsToNat, digitChar_toNat h]
    · have hdiv : n / 10 < n := Nat.div_lt_self (by omega) (by omega)
      simp only [h, if_false]
      rw [digitsToNat_append_digit, ih (n / 10) hdiv,
        digitChar_toNat (Nat.mod_lt n (by omega))]
      omega

theorem parseDigits_natDigits (n : Nat) : parseDigits (natDigits n) = some n := by
  have hall : (natDigits n).takeWhile Char.isDigit = natDigits n := by
    apply List.takeWhile_eq_self_iff.mpr
    intro c hc
    exact natDigits_all_digit n c hc
  have hne : (natDigits n).isEmpty = false := by
    cases h : natDigits n with
    | nil => exact absurd h (natDigits_ne_nil n)
    | cons a l => rfl
  unfold parseDigits
  simp [hall, hne, digitsToNat_natDigits]

theorem parseIntChars_natDigits (n : Nat) : parseIntChars (natDigits n) = some n := by
  unfold parseIntChars
  obtain ⟨c, rest, hrep⟩ : ∃ c rest, natDigits n = c :: rest := by
    cases h : natDigits n with
    | nil => exact absurd h (natDigits_ne_nil n)
    | cons c rest => exact ⟨c, rest, rfl⟩
  have hcdig : c.isDigit = true := natDigits_all_digit n c (hrep ▸ List.mem_cons_self c rest)
  obtain ⟨_, _, _, hminus, hplus, hspace⟩ := isDigit_not_special hcdig
  have hdrop : (natDigits n).dropWhile isJsSpace = natDigits n := by
    rw [hrep]
    rw [List.dropWhile_cons_of_neg (by simp [hspace])]
  rw [hdrop, hrep]
  simp only [hminus, if_false, hplus, if_false]
  rw [← hrep, parseDigits_natDigits]
  rfl

/-! ## Lemmas: the codec round trip -/

theorem runToken_wf {k : Nat} {c : JStr} (_hk : 1 ≤ k) (hc : validColor c) :
    runToken k c ≠ [] ∧ '|' ∉ runToken k c := by
  obtain ⟨hne, _, hbar⟩ := hc
  unfold runToken
  by_cases h1 : k = 1
  · simp [h1, hne, hbar]
  · simp only [h1, if_false]
    constructor
    · simp
    · intro hmem
      rcases List.mem_append.mp hmem with hmem | hmem
      · exact absurd rfl ((isDigit_not_special (natDigits_all_digit k _ hmem)).2.1)
      · rcases List.mem_cons.mp hmem with hmem | hmem
        · exact absurd hmem.symm (by decide)
        · exact hbar hmem

theorem decodeToken_runToken {k : Nat} {c : JStr} (_hk : 1 ≤ k) (hc : validColor c) :
    decodeToken (runToken k c) = List.replicate k c := by
  obtain ⟨hne, hcolon, _⟩ := hc
  by_cases h1 : k = 1
  · subst h1
    have : runToken 1 c = c := by simp [runToken]
    rw [this]
    unfold decodeToken
    simp [hcolon, List.replicate]
  · have htok : runToken k c = natDigits k ++ ':' :: c := by simp [runToken, h1]
    have hdig : ':' ∉ natDigits k := fun hm =>
      absurd rfl ((isDigit_not_special (natDigits_all_digit k _ hm)).1)
    have hmem : ':' ∈ runToken k c := by
      rw [htok]; exact List.mem_append.mpr (Or.inr (List.mem_cons_self _ _))
    unfold decodeToken
    rw [if_pos hmem, htok, splitOnChar_append_sep _ hdig, splitOnChar_of_not_mem hcolon]
    simp [parseIntChars_natDigits]

theorem expandParts_append (xs ys : List JStr) :
    expandParts (xs ++ ys) = expandParts xs ++ expandParts ys := by
  induction xs with
  | nil => rfl
  | cons x xs ih => simp [expandParts, ih]

/-- Every token emitted by the compressor loop is non-empty and free of the
run delimiter, provided the accumulated tokens are and the colors are
well-formed. -/
theorem compressLoop_wf : ∀ (rest compressed : List JStr) (cc : JStr) (k : Nat),
    (∀ t ∈ compressed, t ≠ [] ∧ '|' ∉ t) → validColor cc → (∀ p ∈ rest, validColor p) →
    1 ≤ k →
    ∀ t ∈ compressLoop rest compressed cc k, t ≠ [] ∧ '|' ∉ t := by
  intro rest
  induction rest with
  | nil =>
    intro compressed cc k hcomp hcc _ hk t ht
    rcases List.mem_append.mp ht with ht | ht
    · exact hcomp t ht
    · simp only [List.mem_singleton] at ht
      exact ht ▸ runToken_wf hk hcc
  | cons p rest ih =>
    intro compressed cc k hcomp hcc hrest hk t ht
    simp only [compressLoop] at ht
    by_cases hcond : p = cc ∧ k < 999
    · rw [if_pos hcond] at ht
      exact ih compressed cc (k + 1) hcomp hcc
        (fun q hq => hrest q (List.mem_cons_of_mem p hq)) (by omega) t ht
    · rw [if_neg hcond] at ht
      refine ih (compressed ++ [runToken k cc]) p 1 ?_
        (hrest p (List.mem_cons_self p rest))
        (fun q hq => hrest q (List.mem_cons_of_mem p hq)) (by omega) t ht
      intro u hu
      rcases List.mem_append.mp hu with hu | hu
      · exact hcomp u hu
      · simp only [List.mem_singleton] at hu
        exact hu ▸ runToken_wf hk hcc

/-- The compressor loop invariant: expanding the final token list recovers
the already-emitted prefix, the open run, and the unprocessed suffix. -/
theorem expandParts_compressLoop : ∀ (rest compressed : List JStr) (cc : JStr) (k : Nat),
    validColor cc → (∀ p ∈ rest, validColor p) → 1 ≤ k →
    expandParts (compressLoop rest compressed cc k) =
      expandParts compressed ++ List.replicate k cc ++ rest := by
  intro rest
  induction rest with
  | nil =>
    intro compressed cc k hcc _ hk
    simp only [compressLoop]
    rw [expandParts_append]
    simp [expandParts, decodeToken_runToken hk hcc]
  | cons p rest ih =>
    intro compressed cc k hcc hrest hk
    simp only [compressLoop]
    by_cases hcond : p = cc ∧ k < 999
    · rw [if_pos hcond,
        ih compressed cc (k + 1) hcc (fun q hq => hrest q (List.mem_cons_of_mem p hq))
          (by omega)]
      rw [List.replicate_succ' k cc]
      simp [hcond.1, List.append_assoc]
    · rw [if_neg hcond,
        ih (compressed ++ [runToken k cc]) p 1 (hrest p (List.mem_cons_self p rest))
          (fun q hq => hrest q (List.mem_cons_of_mem p hq)) (by omega)]
      rw [expandParts_append]
      simp [expandParts, decodeToken_runToken hk hcc, List.append_assoc]

theorem compressLoop_ne_nil : ∀ (rest compressed : List JStr) (cc : JStr) (k : Nat),
    compressLoop rest compressed cc k ≠ [] := by
  intro rest
  induction rest with
  | nil => intro compressed cc k; simp [compressLoop]
  | cons p rest ih =>
    intro compressed cc k
    simp only [compressLoop]
    by_cases hcond : p = cc ∧ k < 999
    · rw [if_pos hcond]; exact ih compressed cc (k + 1)
    · rw [if_neg hcond]; exact ih (compressed ++ [runToken k cc]) p 1

/-- The decompressor always returns exactly `expectedLength` cells (spec §3
invariant `len(decode(encodedPixels)) == width*height`). -/
theorem decompressPixelData_length (compressed : JStr) (expectedLength : Nat) :
    (decompressPixelData compressed expectedLength).length = expectedLength := by
  unfold decompressPixelData
  by_cases h : compressed = []
  · simp [h]
  · simp only [h, if_false]
    rw [List.length_take, List.length_append, List.length_replicate]
    omega

/-- Round trip of the codec for well-formed color sequences. -/
theorem decompress_compress {cells : List JStr} (hne : cells ≠ [])
    (hvalid : ∀ c ∈ cells, validColor c) :
    decompressPixelData (compressPixelData cells) cells.length = cells := by
  obtain ⟨p0, rest, rfl⟩ : ∃ p0 rest, cells = p0 :: rest := by
    cases cells with
    | nil => exact absurd rfl hne
    | cons p0 rest => exact ⟨p0, rest, rfl⟩
  set tokens := compressLoop rest [] p0 1 with htokens
  have hwf : ∀ t ∈ tokens, t ≠ [] ∧ '|' ∉ t :=
    compressLoop_wf rest [] p0 1 (by simp) (hvalid p0 (by simp))
      (fun q hq => hvalid q (List.mem_cons_of_mem p0 hq)) (by omega)
  have htne : tokens ≠ [] := compressLoop_ne_nil rest [] p0 1
  have hcomp : compressPixelData (p0 :: rest) = joinSep '|' tokens := rfl
  have hjoin_ne : joinSep '|' tokens ≠ [] :=
    joinSep_ne_nil htne (fun t ht => (hwf t ht).1)
  have hsplit : splitOnChar '|' (joinSep '|' tokens) = tokens :=
    splitOnChar_joinSep htne (fun t ht => (hwf t ht).2)
  have hexpand : expandParts tokens = p0 :: rest := by
    rw [htokens, expandParts_compressLoop rest [] p0 1 (hvalid p0 (by simp))
      (fun q hq => hvalid q (List.mem_cons_of_mem p0 hq)) (by omega)]
    simp [expandParts, List.replicate]
  rw [hcomp]
  unfold decompressPixelData
  rw [if_neg hjoin_ne, hsplit, hexpand]
  simp

/-! ## Lemmas: the resize engine -/

theorem getD_set : ∀ (l : List JStr) (i j : Nat) (v d : JStr),
    (l.set i v).getD j d = if i = j ∧ j < l.length then v else l.getD j d := by
  intro l
  induction l with
  | nil => intro i j v d; simp [List.set]
  | cons a l ih =>
    intro i j v d
    cases i with
    | zero =>
      cases j with
      | zero => simp
      | succ j => simp
    | succ i =>
      cases j with
      | zero => simp
      | succ j =>
        simp only [List.set_cons_succ, List.getD_cons_succ, ih, List.length_cons]
        by_cases hc : i = j ∧ j < l.length
        · rw [if_pos hc, if_pos (by omega)]
        · rw [if_neg hc, if_neg (by omega)]

theorem foldl_set_length {β : Type} (step : List JStr → β → List JStr)
    (hstep : ∀ a b, (step a b).length = a.length) :
    ∀ (xs : List β) (acc : List JStr), (xs.foldl step acc).length = acc.length := by
  intro xs
  induction xs with
  | nil => intro acc; rfl
  | cons x xs ih => intro acc; rw [List.foldl_cons, ih, hstep]

/-- The inner copy loop of `resizePixelData`, one row: cells in the written
window `[y*W, y*W + cw)` receive the copied value, every other cell keeps
its previous content. -/
theorem row_foldl_getD (W y : Nat) (vf : Nat → JStr) (d : JStr) :
    ∀ (cw : Nat) (acc : List JStr) (j : Nat),
    ((List.range cw).foldl (fun a x => a.set (y * W + x) (vf x)) acc).getD j d =
      if y * W ≤ j ∧ j < y * W + cw ∧ j < acc.length then vf (j - y * W)
      else acc.getD j d := by
  intro cw
  induction cw with
  | zero =>
    intro acc j
    rw [List.range_zero, List.foldl_nil, if_neg (by omega)]
  | succ cw ih =>
    intro acc j
    rw [List.range_succ, List.foldl_append, List.foldl_cons, List.foldl_nil, getD_set, ih]
    have hlen : ((List.range cw).foldl (fun a x => a.set (y * W + x) (vf x)) acc).length =
        acc.length :=
      foldl_set_length _ (fun a b => List.length_set a _ _) _ acc
    rw [hlen]
    by_cases h1 : y * W + cw = j ∧ j < acc.length
    · rw [if_pos h1, if_pos (by omega)]
      congr 1
      omega
    · rw [if_neg h1]
      by_cases h2 : y * W ≤ j ∧ j < y * W + cw ∧ j < acc.length
      · rw [if_pos h2, if_pos (by omega)]
      · rw [if_neg h2, if_neg (by omega)]

/-- Row-major index decomposition: with `x < W` and a window width
`cw ≤ W`, the cell `y*W + x` lies in row `r`'s written window iff `y = r`
and `x < cw`. -/
theorem rowIndex_mem_iff {x y r W cw : Nat} (hx : x < W) (hcw : cw ≤ W) :
    (r * W ≤ y * W + x ∧ y * W + x < r * W + cw) ↔ (y = r ∧ x < cw) := by
  constructor
  · rintro ⟨h1, h2⟩
    have hyr : y = r := by
      rcases Nat.lt_trichotomy y r with h | h | h
      · exfalso
        have hstep : (y + 1) * W ≤ r * W := mul_le_mul_right' (by omega) W
        have : y * W + x < y * W + W := by omega
        have : y * W + W = (y + 1) * W := by ring
        omega
      · exact h
      · exfalso
        have hstep : (r + 1) * W ≤ y * W := mul_le_mul_right' (by omega) W
        have : r * W + W = (r + 1) * W := by ring
        omega
    subst hyr
    exact ⟨rfl, by omega⟩
  · rintro ⟨rfl, hxc⟩
    omega

/-- The nested copy loops of `resizePixelData`: cell `(x, y)` of the result
holds the copied old cell inside the `ch × cw` window and the prior content
elsewhere. -/
theorem rows_foldl_getD (W cw : Nat) (hcw : cw ≤ W) (vf : Nat → Nat → JStr) (d : JStr) :
    ∀ (ch : Nat) (acc : List JStr) (x y : Nat), x < W →
    (((List.range ch).foldl
        (fun a yy => (List.range cw).foldl (fun a2 xx => a2.set (yy * W + xx) (vf yy xx)) a)
        acc).getD (y * W + x) d) =
      if y < ch ∧ x < cw ∧ y * W + x < acc.length then vf y x
      else acc.getD (y * W + x) d := by
  intro ch
  induction ch with
  | zero =>
    intro acc x y _
    rw [List.range_zero, List.foldl_nil, if_neg (by omega)]
  | succ ch ih =>
    intro acc x y hx
    rw [List.range_succ, List.foldl_append, List.foldl_cons, List.foldl_nil,
      row_foldl_getD, ih acc x y hx]
    have hlen : (((List.range ch).foldl
        (fun a yy => (List.range cw).foldl (fun a2 xx => a2.set (yy * W + xx) (vf yy xx)) a)
        acc)).length = acc.length := by
      refine foldl_set_length _ (fun a b => ?_) _ acc
      exact foldl_set_length _ (fun a2 b2 => List.length_set a2 _ _) _ a
    rw [hlen]
    have hwin := rowIndex_mem_iff (x := x) (y := y) (r := ch) hx hcw
    by_cases h1 : ch * W ≤ y * W + x ∧ y * W + x < ch * W + cw ∧ y * W + x < acc.length
    · have hy : y = ch ∧ x < cw := hwin.mp ⟨h1.1, h1.2.1⟩
      rw [if_pos h1, if_pos (show y < ch + 1 ∧ x < cw ∧ y * W + x < acc.length from
        ⟨by omega, hy.2, h1.2.2⟩)]
      rw [hy.1]
      congr 1
      omega
    · rw [if_neg h1]
      by_cases h2 : y < ch ∧ x < cw ∧ y * W + x < acc.length
      · rw [if_pos h2, if_pos (by omega)]
      · rw [if_neg h2]
        have : ¬(y < ch + 1 ∧ x < cw ∧ y * W + x < acc.length) := by
          rintro ⟨hy1, hx1, hl1⟩
          have hy2 : y = ch := by omega
          subst hy2
          exact h1 ⟨by omega, by omega, hl1⟩
        rw [if_neg this]

theorem getD_replicate (n j : Nat) : (List.replicate n defaultColor).getD j defaultColor =
    defaultColor := by
  induction n generalizing j with
  | zero => simp [List.getD]
  | succ n ih =>
    cases j with
    | zero => simp [List.replicate_succ]
    | succ j =>
      simp only [List.replicate_succ, List.getD_cons_succ]
      exact ih j

/-! ## Lemmas: the pixel-document batch update -/

theorem docs_batch_invalid (pal : List JStr) (w h : Int) :
    ∀ (updates : List PixelUpd) (table : List PixelDoc),
    (∃ u ∈ updates, u.color ∉ pal) →
    Docs.updatePixels pal w h table updates = .error .invalidColor := by
  intro updates
  induction updates with
  | nil =>
    intro table hex
    obtain ⟨u, hu, _⟩ := hex
    exact absurd hu (List.not_mem_nil u)
  | cons u rest ih =>
    intro table hex
    show Docs.updatePixelsLoop pal w h (u :: rest) table = .error .invalidColor
    unfold Docs.updatePixelsLoop
    by_cases hc : u.color ∉ pal
    · rw [if_pos hc]
    · rw [if_neg hc]
      have hrest : ∃ v ∈ rest, v.color ∉ pal := by
        obtain ⟨v, hv, hvc⟩ := hex
        rcases List.mem_cons.mp hv with rfl | hv
        · exact absurd hvc hc
        · exact ⟨v, hv, hvc⟩
      by_cases hb : u.x < 0 ∨ u.x ≥ w ∨ u.y < 0 ∨ u.y ≥ h
      · rw [if_pos hb]; exact ih table hrest
      · rw [if_neg hb]; exact ih _ hrest

theorem docs_batch_valid (pal : List JStr) (w h : Int) :
    ∀ (updates : List PixelUpd) (table : List PixelDoc),
    (∀ u ∈ updates, u.color ∈ pal) →
    Docs.updatePixels pal w h table updates = .ok (updates.foldl
      (fun t u =>
        if u.x < 0 ∨ u.x ≥ w ∨ u.y < 0 ∨ u.y ≥ h then t
        else Docs.setPixelDoc t u.x u.y u.color) table) := by
  intro updates
  induction updates with
  | nil => intro table _; rfl
  | cons u rest ih =>
    intro table hall
    show Docs.updatePixelsLoop pal w h (u :: rest) table = _
    unfold Docs.updatePixelsLoop
    rw [if_neg (not_not_intro (hall u (List.mem_cons_self u rest))), List.foldl_cons]
    have hrest : ∀ v ∈ rest, v.color ∈ pal :=
      fun v hv => hall v (List.mem_cons_of_mem u hv)
    by_cases hb : u.x < 0 ∨ u.x ≥ w ∨ u.y < 0 ∨ u.y ≥ h
    · rw [if_pos hb, if_pos hb]; exact ih table hrest
    · rw [if_neg hb, if_neg hb]; exact ih _ hrest

/-! ## Lemmas: the reconciler's pending map -/

theorem mapGet_mapDelete (m : List ((Int × Int) × JStr)) (k : Int × Int) :
    App.mapGet (App.mapDelete m k) k = none := by
  induction m with
  | nil => rfl
  | cons e rest ih =>
    unfold App.mapDelete at ih ⊢
    unfold App.mapGet at ih ⊢
    by_cases he : e.1 = k
    · simp [List.filter_cons, he, ih]
    · simp only [List.filter_cons]
      simp [he, ih]

theorem mapHas_eq_false_of_mapGet_none {m : List ((Int × Int) × JStr)} {k : Int × Int}
    (h : App.mapGet m k = none) : App.mapHas m k = false := by
  unfold App.mapGet at h
  unfold App.mapHas
  induction m with
  | nil => rfl
  | cons e rest ih =>
    rw [List.any_cons]
    cases hd : decide (e.1 = k) with
    | true =>
      have hfind : List.find? (fun e => decide (e.1 = k)) (e :: rest) = some e := by
        simp [List.find?_cons, hd]
      rw [hfind] at h
      simp at h
    | false =>
      have hfind : List.find? (fun e => decide (e.1 = k)) (e :: rest) =
          List.find? (fun e => decide (e.1 = k)) rest := by
        simp [List.find?_cons, hd]
      rw [hfind] at h
      rw [Bool.false_or]
      exact ih h

theorem mapHas_of_mapGet_some {m : List ((Int × Int) × JStr)} {k : Int × Int} {v : JStr}
    (h : App.mapGet m k = some v) : App.mapHas m k = true := by
  by_cases hh : App.mapHas m k = true
  · exact hh
  · exfalso
    unfold App.mapHas at hh
    unfold App.mapGet at h
    rw [List.any_eq_true] at hh
    push_neg at hh
    have : m.find? (fun e => e.1 = k) = none := by
      rw [List.find?_eq_none]
      intro e he
      simpa using hh e he
    rw [this] at h
    exact absurd h (by simp)

/-! ## The claims -/

/-- Claim C1, counterexample to the unrestricted statement: the codec round
trip fails for the single color token `"1:a"` (a token containing the
count separator): it is encoded as the bare part `1:a`, which decode then
reads as a run of one `"a"`. -/
theorem c1_counterexample :
    decompressPixelData (compressPixelData [str "1:a"]) 1 = [str "a"] ∧
    [str "a"] ≠ [str "1:a"] := by decide

/-- Claim C1 (amended): for every non-empty sequence of well-formed color
tokens — non-empty tokens free of the reserved characters `'|'` and `':'`,
which covers every palette color of the repository — decoding the encoded
form at the original length returns the original sequence:
`decode(encode(cells), len(cells)) == cells`. -/
theorem c1_roundtrip (cells : List JStr) (hne : cells ≠ [])
    (hvalid : ∀ c ∈ cells, validColor c) :
    decompressPixelData (compressPixelData cells) cells.length = cells :=
  decompress_compress hne hvalid

/-- Witness for C1 at a concrete three-cell sequence. -/
theorem c1_roundtrip_witness :
    ([str "#FF0000", str "#FF0000", str "#00FF00"] ≠ ([] : List JStr)) ∧
    (∀ c ∈ [str "#FF0000", str "#FF0000", str "#00FF00"], validColor c) ∧
    decompressPixelData (compressPixelData [str "#FF0000", str "#FF0000", str "#00FF00"]) 3 =
      [str "#FF0000", str "#FF0000", str "#00FF00"] :=
  ⟨by decide, by decide,
    c1_roundtrip [str "#FF0000", str "#FF0000", str "#00FF00"] (by decide) (by decide)⟩

/-- Claim C2, counterexample: in the strict RLE batch variant
(`src/unnamed/part_000:895-938`, cited by the claim) a batch whose colors
are all in the palette but which contains one out-of-bounds entry fails
wholesale with `OutOfBounds` instead of silently skipping that entry and
applying the in-bounds one. -/
theorem c2_counterexample :
    Strict.updatePixels [str "#000000"] 2 (some ⟨str "4:#FFFFFF"⟩)
      [⟨0, 0, str "#000000"⟩, ⟨5, 0, str "#000000"⟩] = .error .outOfBounds := rfl

/-- Claim C2 (amended, for the pixel-document variant
`src/unnamed/part_000:259-306`): a batch containing any entry with a color
not in the palette fails entirely with `InvalidColor` — the mutation is
transactional, so the stored table is unchanged — while for an all-valid
batch the out-of-bounds entries are silently skipped and every in-bounds
entry is applied in order.  (The strict RLE batch variant instead fails the
whole batch on an out-of-bounds entry, see the counterexample.) -/
theorem c2_docs_updatePixels (pal : List JStr) (w h : Int) (table : List PixelDoc)
    (updates : List PixelUpd) :
    ((∃ u ∈ updates, u.color ∉ pal) →
      Docs.updatePixels pal w h table updates = .error .invalidColor) ∧
    ((∀ u ∈ updates, u.color ∈ pal) →
      Docs.updatePixels pal w h table updates = .ok (updates.foldl
        (fun t u =>
          if u.x < 0 ∨ u.x ≥ w ∨ u.y < 0 ∨ u.y ≥ h then t
          else Docs.setPixelDoc t u.x u.y u.color) table)) :=
  ⟨docs_batch_invalid pal w h updates table, docs_batch_valid pal w h updates table⟩

/-- Witness for C2: a batch with one bad color is rejected whole; an
all-valid batch with one out-of-bounds entry applies only the in-bounds
entry. -/
theorem c2_witness :
    Docs.updatePixels [str "#000000"] 2 2 []
      [⟨0, 0, str "#000000"⟩, ⟨1, 1, str "#123456"⟩] = .error .invalidColor ∧
    Docs.updatePixels [str "#000000"] 2 2 []
      [⟨0, 0, str "#000000"⟩, ⟨5, 0, str "#000000"⟩] = .ok [⟨0, 0, str "#000000"⟩] := by
  constructor
  · exact (c2_docs_updatePixels [str "#000000"] 2 2 []
      [⟨0, 0, str "#000000"⟩, ⟨1, 1, str "#123456"⟩]).1
      ⟨⟨1, 1, str "#123456"⟩, by decide, by decide⟩
  · have h := (c2_docs_updatePixels [str "#000000"] 2 2 []
      [⟨0, 0, str "#000000"⟩, ⟨5, 0, str "#000000"⟩]).2 (by decide)
    rw [h]
    rfl

/-- Claim C3, counterexample: for a stored `1×1` record under a configured
`2×1` size, `getCanvas` does *not* return the old cells decoded at the old
stored size (`["#000000"]`): it returns the old cells resized to the
configured size (`["#000000", "#FFFFFF"]` at width 2). -/
theorem c3_counterexample :
    Convex.getCanvas [] 2 1 (some ⟨str "1,1|#000000"⟩) =
      some ⟨2, 1, [str "#000000", defaultColor], [], true⟩ ∧
    Option.map GetCanvasResult.pixels (Convex.getCanvas [] 2 1 (some ⟨str "1,1|#000000"⟩)) ≠
      some (decompressPixelData (str "#000000") (1 * 1)) := by decide

/-- Claim C3 (amended): for every stored record whose stored dimensions
differ from the configured ones, `getCanvas` returns the old cells decoded
at the old stored size *and then resized to the configured size* (top-left
anchored, default-padded), together with `needsResize = true`; being a
Convex query it performs no database write, so the stored record is
untouched (the embedding is a pure function of the record). -/
theorem c3_getCanvas_resized (pal : List JStr) (w h : Nat) (record : CanvasRecord)
    (sw sh : Nat) (comp : JStr)
    (hext : extractSizeFromCompressed record.pixels =
      ⟨some (sw : Int), some (sh : Int), comp⟩)
    (hdiff : sw ≠ w ∨ sh ≠ h) :
    Convex.getCanvas pal w h (some record) =
      some { width := w, height := h,
             pixels := resizePixelData (decompressPixelData comp (sw * sh)) sw sh w h,
             palette := pal, needsResize := true } := by
  unfold Convex.getCanvas
  dsimp only
  rw [hext]
  dsimp only
  have hcond : ((sw : Int) ≠ (w : Int) ∨ (sh : Int) ≠ (h : Int)) := by
    rcases hdiff with hdiff | hdiff
    · exact Or.inl (by exact_mod_cast hdiff)
    · exact Or.inr (by exact_mod_cast hdiff)
  simp only [if_pos hcond]
  have h1 : ((sw : Int) * (sh : Int)).toNat = sw * sh := by
    rw [← Nat.cast_mul, Int.toNat_natCast]
  have h2 : ((sw : Int)).toNat = sw := Int.toNat_natCast sw
  have h3 : ((sh : Int)).toNat = sh := Int.toNat_natCast sh
  rw [h1, h2, h3]

/-- Witness for C3 at a concrete stored `1×1` record and configured `2×1`
size. -/
theorem c3_witness :
    extractSizeFromCompressed (CanvasRecord.mk (str "1,1|#000000")).pixels =
      ⟨some 1, some 1, str "#000000"⟩ ∧
    ((1 : Nat) ≠ 2 ∨ (1 : Nat) ≠ 1) ∧
    Convex.getCanvas [] 2 1 (some ⟨str "1,1|#000000"⟩) =
      some ⟨2, 1, resizePixelData (decompressPixelData (str "#000000") (1 * 1)) 1 1 2 1,
        [], true⟩ :=
  ⟨by decide, by decide,
    c3_getCanvas_resized [] 2 1 ⟨str "1,1|#000000"⟩ 1 1 (str "#000000")
      (by decide) (by decide)⟩

/-- Claim C4, counterexample: the RLE store's `updatePixel`
(`src/convex/functions.ts:262-302`, cited by the claim) does not fail for an
out-of-bounds coordinate.  At `(x, y) = (-1, 1)` on a configured `2×2`
canvas the linear index is `1*2 + (-1) = 1`, inside `[0, 4)`, so the call
succeeds and *mutates* the stored grid (cell `(1, 0)` turns black). -/
theorem c4_counterexample :
    Convex.updatePixel [str "#000000"] 2 2 (some ⟨str "2,2|4:#FFFFFF"⟩)
      (-1) 1 (str "#000000") =
      .ok (some ⟨str "2,2|#FFFFFF|#000000|2:#FFFFFF"⟩) ∧
    str "2,2|#FFFFFF|#000000|2:#FFFFFF" ≠ str "2,2|4:#FFFFFF" :=
  ⟨rfl, by decide⟩

/-- Claim C4 (amended, for the pixel-document variant
`src/unnamed/part_000:170-213`): for every coordinate outside
`[0,W) × [0,H)` of the configured size and every palette color,
`updatePixel` fails with `OutOfBounds` before touching the database (the
RLE variant instead never raises `OutOfBounds`: it silently skips writes
whose linear index is out of range and otherwise writes the aliased
cell). -/
theorem c4_docs_outOfBounds (pal : List JStr) (w h : Int) (table : List PixelDoc)
    (x y : Int) (c : JStr) (hc : c ∈ pal)
    (hoob : x < 0 ∨ x ≥ w ∨ y < 0 ∨ y ≥ h) :
    Docs.updatePixel pal w h table x y c = .error .outOfBounds := by
  unfold Docs.updatePixel
  rw [if_neg (not_not_intro hc), if_pos hoob]

/-- Witness for C4 at `(5, 0)` on a `2×2` canvas. -/
theorem c4_witness :
    (str "#000000") ∈ [str "#000000"] ∧
    ((5 : Int) < 0 ∨ (5 : Int) ≥ 2 ∨ (0 : Int) < 0 ∨ (0 : Int) ≥ 2) ∧
    Docs.updatePixel [str "#000000"] 2 2 [] 5 0 (str "#000000") = .error .outOfBounds :=
  ⟨by decide, by decide,
    c4_docs_outOfBounds [str "#000000"] 2 2 [] 5 0 (str "#000000") (by decide) (by decide)⟩

/-- Claim C5 (confirmed): `resizePixelData` returns a `newW*newH`-cell grid
equal to the default color everywhere except that
`new[y*newW+x] = old[y*oldW+x]` for `x < min(oldW,newW)`,
`y < min(oldH,newH)` (every cell of the new grid is `y*newW+x` for exactly
one such `(x, y)` with `x < newW`, `y < newH`); growing `(2,2)→(4,3)` and
shrinking `(3,2)→(2,1)` behave as the spec's examples state. -/
theorem c5_resize (old : List JStr) (oldW oldH newW newH : Nat)
    (_hlen : old.length = oldW * oldH) :
    (resizePixelData old oldW oldH newW newH).length = newW * newH ∧
    (∀ x y, x < newW → y < newH →
      (resizePixelData old oldW oldH newW newH).getD (y * newW + x) defaultColor =
        if x < min oldW newW ∧ y < min oldH newH then old.getD (y * oldW + x) defaultColor
        else defaultColor) ∧
    (∀ A B C D : JStr, resizePixelData [A, B, C, D] 2 2 4 3 =
      [A, B, defaultColor, defaultColor,
       C, D, defaultColor, defaultColor,
       defaultColor, defaultColor, defaultColor, defaultColor]) ∧
    (∀ A B C D E F : JStr, resizePixelData [A, B, C, D, E, F] 3 2 2 1 = [A, B]) := by
  refine ⟨?_, ?_, fun A B C D => rfl, fun A B C D E F => rfl⟩
  · unfold resizePixelData
    rw [foldl_set_length _
      (fun a b => foldl_set_length _ (fun a2 b2 => List.length_set a2 _ _) _ a) _ _,
      List.length_replicate]
  · intro x y hx hy
    unfold resizePixelData
    rw [rows_foldl_getD newW (min oldW newW) (min_le_right oldW newW)
      (fun yy xx => old.getD (yy * oldW + xx) defaultColor) defaultColor
      (min oldH newH) _ x y hx]
    rw [List.length_replicate]
    by_cases hc : x < min oldW newW ∧ y < min oldH newH
    · have hj : y * newW + x < newW * newH := by
        have h2 : (y + 1) * newW ≤ newH * newW := mul_le_mul_right' (by omega) newW
        have h3 : (y + 1) * newW = y * newW + newW := by ring
        have h4 : newH * newW = newW * newH := Nat.mul_comm _ _
        omega
      rw [if_pos ⟨hc.2, hc.1, hj⟩, if_pos hc]
    · rw [if_neg (fun hcc => hc ⟨hcc.2.1, hcc.1⟩), if_neg hc]
      exact getD_replicate _ _

/-- Witness for C5 at a concrete `1×1 → 1×1` resize. -/
theorem c5_witness :
    ([str "a"].length = 1 * 1) ∧ (resizePixelData [str "a"] 1 1 1 1).length = 1 * 1 :=
  ⟨by decide, (c5_resize [str "a"] 1 1 1 1 (by decide)).1⟩

/-- Claim C6, counterexample: start from a blank `10×10` grid, paint
`(5,5)` red (optimistic, pending), then receive two remote green updates
for `(5,5)` before the submission settles.  The first remote update leaves
the rendered color red but *deletes* the pending entry (the claim says it
remains until the round trip completes); the second remote update then
changes the rendered color to green even though the local edit's round trip
has still not completed. -/
theorem c6_counterexample :
    App.mapGet (App.updateSinglePixel 10 ⟨List.replicate 100 defaultColor, []⟩
        5 5 (str "#FF0000")).pendingUpdates (5, 5) = some (str "#FF0000") ∧
    ((App.handleRemotePixelUpdate 10
        (App.updateSinglePixel 10 ⟨List.replicate 100 defaultColor, []⟩ 5 5 (str "#FF0000"))
        5 5 (str "#00FF00")).localPixelData.getD 55 []) = str "#FF0000" ∧
    App.mapGet (App.handleRemotePixelUpdate 10
        (App.updateSinglePixel 10 ⟨List.replicate 100 defaultColor, []⟩ 5 5 (str "#FF0000"))
        5 5 (str "#00FF00")).pendingUpdates (5, 5) = none ∧
    ((App.handleRemotePixelUpdate 10
        (App.handleRemotePixelUpdate 10
          (App.updateSinglePixel 10 ⟨List.replicate 100 defaultColor, []⟩ 5 5 (str "#FF0000"))
          5 5 (str "#00FF00"))
        5 5 (str "#00FF00")).localPixelData.getD 55 []) = str "#00FF00" := by decide

/-- Claim C6 (amended): a remote update for a cell holding a pending local
entry (whatever the colors) leaves the rendered pixel data unchanged but
*immediately deletes* the pending entry, so a second remote update arriving
before the local round trip completes does change the rendered cell. -/
theorem c6_pending_remote (w : Nat) (s : AppState) (x y : Int) (c v : JStr)
    (hp : App.mapGet s.pendingUpdates (x, y) = some v) :
    (App.handleRemotePixelUpdate w s x y c).localPixelData = s.localPixelData ∧
    App.mapGet (App.handleRemotePixelUpdate w s x y c).pendingUpdates (x, y) = none ∧
    (App.handleRemotePixelUpdate w
        (App.handleRemotePixelUpdate w s x y c) x y c).localPixelData =
      App.listSetInt s.localPixelData (y * w + x) c := by
  have hhas : App.mapHas s.pendingUpdates (x, y) = true := mapHas_of_mapGet_some hp
  have hs1 : App.handleRemotePixelUpdate w s x y c =
      { s with pendingUpdates := App.mapDelete s.pendingUpdates (x, y) } := by
    unfold App.handleRemotePixelUpdate
    rw [if_pos hhas]
  have hfalse : App.mapHas (App.mapDelete s.pendingUpdates (x, y)) (x, y) = false :=
    mapHas_eq_false_of_mapGet_none (mapGet_mapDelete s.pendingUpdates (x, y))
  refine ⟨by rw [hs1], by rw [hs1]; exact mapGet_mapDelete _ _, ?_⟩
  rw [hs1]
  unfold App.handleRemotePixelUpdate
  rw [if_neg (by simp [hfalse])]

/-- Witness for C6 with a concrete pending entry. -/
theorem c6_witness :
    App.mapGet [((5, 5), str "#FF0000")] (5, 5) = some (str "#FF0000") ∧
    ((App.handleRemotePixelUpdate 10
        ⟨List.replicate 100 defaultColor, [((5, 5), str "#FF0000")]⟩
        5 5 (str "#00FF00")).localPixelData = List.replicate 100 defaultColor ∧
      App.mapGet (App.handleRemotePixelUpdate 10
        ⟨List.replicate 100 defaultColor, [((5, 5), str "#FF0000")]⟩
        5 5 (str "#00FF00")).pendingUpdates (5, 5) = none ∧
      (App.handleRemotePixelUpdate 10
        (App.handleRemotePixelUpdate 10
          ⟨List.replicate 100 defaultColor, [((5, 5), str "#FF0000")]⟩
          5 5 (str "#00FF00"))
        5 5 (str "#00FF00")).localPixelData =
        App.listSetInt (List.replicate 100 defaultColor) (5 * 10 + 5) (str "#00FF00")) :=
  ⟨by decide,
    c6_pending_remote 10 ⟨List.replicate 100 defaultColor, [((5, 5), str "#FF0000")]⟩
      5 5 (str "#00FF00") (str "#FF0000") (by decide)⟩

/-- Claim C7, counterexample: the primary decoder
(`src/convex/functions.ts:71-97`, cited by the claim) never fails on a
malformed run: the part `"0:a"` carries the non-positive count `0`, yet
decoding succeeds, silently expanding it to zero copies and padding with
the default color. -/
theorem c7_counterexample :
    decompressPixelData (str "0:a") 1 = [defaultColor] := by decide

/-- Claim C7 (amended, for the strict variant
`src/unnamed/part_000:765-795`): for an encoded part containing the count
separator, decode parses the text before the first `':'` with JS
`parseInt`; it fails with `MalformedRun` when the parse yields no number or
a non-positive one, and otherwise repeats the part's color (the text
between the first and second `':'`) exactly `count` times.  (The primary
variant instead swallows malformed runs, see the counterexample.) -/
theorem c7_strict_decode (part : JStr) (hsep : ':' ∈ part) (hbar : '|' ∉ part) :
    (parseIntChars ((splitOnChar ':' part).getD 0 []) = none →
      ∀ n, Strict.decompressPixelData part n = .error .malformedRun) ∧
    (∀ k : Int, parseIntChars ((splitOnChar ':' part).getD 0 []) = some k → k ≤ 0 →
      ∀ n, Strict.decompressPixelData part n = .error .malformedRun) ∧
    (∀ k : Int, parseIntChars ((splitOnChar ':' part).getD 0 []) = some k → 0 < k →
      Strict.decompressPixelData part k.toNat =
        .ok (List.replicate k.toNat ((splitOnChar ':' part).getD 1 []))) := by
  have hne : part ≠ [] := List.ne_nil_of_mem hsep
  have hsplit : splitOnChar '|' part = [part] := splitOnChar_of_not_mem hbar
  refine ⟨fun hnone n => ?_, fun k hk hk0 n => ?_, fun k hk hk0 => ?_⟩
  · unfold Strict.decompressPixelData
    rw [if_neg hne, hsplit]
    unfold Strict.expandPartsE Strict.expandPartsE
    unfold Strict.expandPart
    rw [if_pos hsep]
    dsimp only
    rw [hnone]
  · unfold Strict.decompressPixelData
    rw [if_neg hne, hsplit]
    unfold Strict.expandPartsE Strict.expandPartsE
    unfold Strict.expandPart
    rw [if_pos hsep]
    dsimp only
    rw [hk]
    dsimp only
    rw [if_pos hk0]
  · unfold Strict.decompressPixelData
    rw [if_neg hne, hsplit]
    unfold Strict.expandPartsE Strict.expandPartsE
    unfold Strict.expandPart
    rw [if_pos hsep]
    dsimp only
    rw [hk]
    dsimp only
    rw [if_neg (show ¬(k ≤ 0) by omega)]
    simp [Except.map]

/-- Witness for C7: the part `"3:a"` decodes to three copies of `"a"`. -/
theorem c7_witness :
    (':' ∈ str "3:a") ∧ ('|' ∉ str "3:a") ∧
    parseIntChars ((splitOnChar ':' (str "3:a")).getD 0 []) = some 3 ∧
    Strict.decompressPixelData (str "3:a") (Int.toNat 3) =
      .ok (List.replicate (Int.toNat 3) ((splitOnChar ':' (str "3:a")).getD 1 [])) :=
  ⟨by decide, by decide, by decide,
    (c7_strict_decode (str "3:a") (by decide) (by decide)).2.2 3 (by decide) (by decide)⟩

/-- Claim C8 (confirmed): with `reconnectAttempts` counting the attempts
already made, the delay before attempt `n` (for `n = 1..5`) is
`min(1000 * 2^(n-1), 30000)`, the resulting sequence is
`1000, 2000, 4000, 8000, 16000` ms, and once 5 attempts have been made
(`reconnectAttempts ≥ 5`) no further reconnection is scheduled. -/
theorem c8_backoff :
    (∀ n, 1 ≤ n → n ≤ 5 → App.backoffDelay (n - 1) = min (1000 * 2 ^ (n - 1)) 30000) ∧
    (List.map App.backoffDelay (List.range 5) = [1000, 2000, 4000, 8000, 16000]) ∧
    (∀ wasClean attempts, 5 ≤ attempts → App.willReconnect wasClean attempts = false) := by
  refine ⟨fun n h1 h5 => rfl, by decide, fun wc a ha => ?_⟩
  unfold App.willReconnect
  rw [decide_eq_false (by omega), Bool.and_false]

/-- Witness for C8 at attempt 3 and at 7 prior attempts. -/
theorem c8_witness :
    (1 ≤ 3 ∧ 3 ≤ 5 ∧ App.backoffDelay (3 - 1) = min (1000 * 2 ^ (3 - 1)) 30000) ∧
    (5 ≤ 7 ∧ App.willReconnect false 7 = false) :=
  ⟨⟨by decide, by decide, c8_backoff.1 3 (by decide) (by decide)⟩,
    ⟨by decide, c8_backoff.2.2 false 7 (by decide)⟩⟩

/-- Claim C9 (confirmed): encoding the empty cell sequence yields the empty
string (the guarded variant returns `''` explicitly; in the unguarded
copies `[undefined].join('|')` likewise evaluates to `''`). -/
theorem c9_compress_empty : compressPixelData [] = str "" := rfl

/-- Claim C10 (confirmed): in the RLE-record store, `updatePixel` with a
palette color whose linear index `y*width + x` falls outside
`[0, width*height)` returns success (`.ok`) and leaves the stored record
completely unchanged. -/
theorem c10_updatePixel_skip (pal : List JStr) (w h : Nat) (record : CanvasRecord)
    (x y : Int) (c : JStr) (hc : c ∈ pal)
    (hidx : y * w + x < 0 ∨ ((w * h : Nat) : Int) ≤ y * w + x) :
    Convex.updatePixel pal w h (some record) x y c = .ok (some record) := by
  unfold Convex.updatePixel
  rw [if_neg (not_not_intro hc)]
  dsimp only
  have hlen := decompressPixelData_length
    (extractSizeFromCompressed record.pixels).compressed (w * h)
  have hcond : ¬(0 ≤ y * (w : Int) + x ∧ y * (w : Int) + x <
      ((decompressPixelData
        (extractSizeFromCompressed record.pixels).compressed (w * h)).length : Int)) := by
    rw [hlen]
    push_cast at hidx ⊢
    omega
  rw [if_neg hcond]

/-- Witness for C10: index `1` on a `1×1` canvas is out of range; the
record is returned unchanged. -/
theorem c10_witness :
    (str "#000000") ∈ [str "#000000"] ∧
    ((1 : Int) * 1 + 0 < 0 ∨ ((1 * 1 : Nat) : Int) ≤ 1 * 1 + 0) ∧
    Convex.updatePixel [str "#000000"] 1 1 (some ⟨str "1,1|#FFFFFF"⟩) 0 1 (str "#000000") =
      .ok (some ⟨str "1,1|#FFFFFF"⟩) :=
  ⟨by decide, by decide,
    c10_updatePixel_skip [str "#000000"] 1 1 ⟨str "1,1|#FFFFFF"⟩ 0 1 (str "#000000")
      (by decide) (by decide)⟩
